import Mathlib

/-!
Shallow embedding of the helix-move repository (FlorianNAdam/helix-move).

The functions below are translated from `src/helix-move-lib/src/lib.rs`
(rule building, normalization, directory synthesis), from
`src/helix-move-bin/src/main.rs` (the transactional applier, modelled at
the level of relative-path sets) and from `src/helix-move-lsp/src/main.rs`
(the live normalizer's change handler).

Paths are forward-slash strings; a trailing slash marks a directory.
Rust `String` is embedded as Lean `String`; the character-level helpers
(`split('/')`, `trim_end_matches('/')`, `rfind('/')`, `join("/")`) are
implemented over `String.data : List Char`.
-/

/-- `Rule` from lib.rs: `Unchanged { path }`, `Renamed { from, to }`,
`Deleted { path }` (constructor arguments in that order). -/
inductive Rule : Type where
  | Unchanged : String → Rule
  | Renamed : String → String → Rule
  | Deleted : String → Rule
deriving DecidableEq, Repr

/-- `FullRule` from lib.rs: `Rule` plus `Added { path }`. -/
inductive FullRule : Type where
  | Unchanged : String → FullRule
  | Renamed : String → String → FullRule
  | Deleted : String → FullRule
  | Added : String → FullRule
deriving DecidableEq, Repr

/-- `EditRule` from lib.rs: the rules that require filesystem action. -/
inductive EditRule : Type where
  | Unchanged : String → EditRule
  | Renamed : String → String → EditRule
  | Added : String → EditRule
deriving DecidableEq, Repr

/-! ### Character-level path helpers -/

/-- Rust `str::split(sep)` on a character list: always returns at least one
piece; separators delimit (possibly empty) pieces. -/
def splitOnChar (sep : Char) : List Char → List (List Char)
  | [] => [[]]
  | c :: rest =>
    match splitOnChar sep rest with
    | [] => [[c]]
    | p :: ps => if c = sep then [] :: p :: ps else (c :: p) :: ps

/-- Rust `Vec::join(sep)` on character lists. -/
def joinChar (sep : Char) : List (List Char) → List Char
  | [] => []
  | [p] => p
  | p :: q :: ps => p ++ sep :: joinChar sep (q :: ps)

/-- Rust `str::trim_end_matches(sep)`: drop every trailing `sep`. -/
def trimEndChar (sep : Char) (l : List Char) : List Char :=
  (l.reverse.dropWhile (fun c => c = sep)).reverse

/-- Rust `str::rfind(sep)`: index of the last occurrence of `sep`. -/
def rfindChar (sep : Char) : List Char → Option Nat
  | [] => none
  | c :: rest =>
    match rfindChar sep rest with
    | some k => some (k + 1)
    | none => if c = sep then some 0 else none

/-- Rust `str::starts_with(pre)`: raw string prefix test (not
segment-aware). -/
def strStartsWith (s pre : String) : Bool :=
  decide (s.data.take pre.data.length = pre.data)

/-- Rust `str::ends_with("/")`: whether the last character is a slash. -/
def endsSlash (s : String) : Bool :=
  decide (s.data.getLast? = some '/')

/-- `path.trim_end_matches('/').split('/')`: the directory segments used by
the segment-aware helpers of lib.rs. -/
def pathSegments (s : String) : List (List Char) :=
  splitOnChar '/' (trimEndChar '/' s.data)

/-- `path_starts_with` from lib.rs: segment-aware path prefix test
(`base`'s segments are an initial run of `path`'s segments). -/
def path_starts_with (path base : String) : Bool :=
  let pathParts := pathSegments path
  let baseParts := pathSegments base
  decide (baseParts.length ≤ pathParts.length ∧
    pathParts.take baseParts.length = baseParts)

/-- `depth` from lib.rs: `path.matches('/').count()` — the raw slash count
of the path, with no stripping of a trailing slash. -/
def depth (path : String) : Nat :=
  path.data.count '/'

/-- `rewrite_path` from lib.rs: if `path` is segment-prefixed by `from`
(and differs from it), replace the `from` segments by `to`'s segments,
preserving a trailing slash of `path`. -/
def rewrite_path (path f t : String) : String :=
  if path_starts_with path f then
    if path = f then path
    else
      let pathParts := pathSegments path
      let fromParts := pathSegments f
      let toParts := pathSegments t
      let newParts := toParts ++ pathParts.drop fromParts.length
      let joined := joinChar '/' newParts
      if endsSlash path then String.mk (joined ++ ['/']) else String.mk joined
  else path

/-! ### Phase 1 — build rules -/

/-- One index of `build_rules` from lib.rs: unchanged when equal, deleted
when the edited slot gains the `"- "` sentinel, renamed otherwise. -/
def pair_rule (old new : String) : Rule :=
  if old = new then Rule.Unchanged old
  else if strStartsWith new "- " && !(strStartsWith old "- ") then Rule.Deleted old
  else Rule.Renamed old new

/-- `build_rules` from lib.rs; the Rust function asserts that both listings
have the same length (a contract violation otherwise), embedded here as
`none` on a length mismatch. -/
def build_rules (original new : List String) : Option (List Rule) :=
  if original.length = new.length then
    some (List.zipWith pair_rule original new)
  else none

/-! ### Phase 2 — normalize rules -/

/-- `apply_deletes` from lib.rs: a non-deleted rule whose `from`/`path`
raw-string-starts-with some deleted path becomes `Deleted`. -/
def apply_deletes (rule : Rule) (deletes : List String) : Rule :=
  match rule with
  | Rule.Deleted path => Rule.Deleted path
  | Rule.Unchanged path =>
    if deletes.any (fun d => strStartsWith path d) then Rule.Deleted path
    else Rule.Unchanged path
  | Rule.Renamed f t =>
    if deletes.any (fun d => strStartsWith f d) then Rule.Deleted f
    else Rule.Renamed f t

/-- The paths of the `Deleted` rules of a rule list (step 1 of
`normalize_rules`). -/
def delete_paths (rules : List Rule) : List String :=
  rules.filterMap (fun r => match r with
    | Rule.Deleted path => some path
    | _ => none)

/-- Step 1 of `normalize_rules`: map `apply_deletes` over the list. -/
def delete_stage (rules : List Rule) : List Rule :=
  rules.map (fun r => apply_deletes r (delete_paths rules))

/-- `rewrite_rule` from lib.rs: propagate the rename `f → t` into one rule;
an `Unchanged` whose path is rewritten is promoted to `Renamed`, a
`Renamed` keeps its `from` and rewrites only its `to`. -/
def rewrite_rule (rule : Rule) (f t : String) : Rule :=
  match rule with
  | Rule.Deleted path => Rule.Deleted path
  | Rule.Unchanged path =>
    let newPath := rewrite_path path f t
    if newPath = path then Rule.Unchanged path
    else Rule.Renamed path newPath
  | Rule.Renamed f' t' => Rule.Renamed f' (rewrite_path t' f t)

/-- `rule_depth` from lib.rs: the `depth` of the rule's `from`/`path`. -/
def rule_depth (rule : Rule) : Nat :=
  match rule with
  | Rule.Unchanged path => depth path
  | Rule.Renamed f _ => depth f
  | Rule.Deleted path => depth path

/-- `rule_depth` of the rule at index `i` of `s` (out-of-range indices get
a dummy rule; the normalizer only sorts in-range indices). -/
def ruleDepthAt (s : List Rule) (i : Nat) : Nat :=
  rule_depth (s.getD i (Rule.Deleted ""))

/-- The total order in which Rust's stable `sort_by_key` by `rule_depth`
arranges the indices of `s`: ascending depth, ties kept in index order. -/
def ruleIndexLe (s : List Rule) (i j : Nat) : Prop :=
  ruleDepthAt s i < ruleDepthAt s j ∨
    (ruleDepthAt s i = ruleDepthAt s j ∧ i ≤ j)

instance (s : List Rule) : DecidableRel (ruleIndexLe s) := fun i j => by
  unfold ruleIndexLe; infer_instance

instance (s : List Rule) : IsTotal Nat (ruleIndexLe s) where
  total i j := by
    unfold ruleIndexLe
    rcases Nat.lt_trichotomy (ruleDepthAt s i) (ruleDepthAt s j) with h | h | h
    · exact Or.inl (Or.inl h)
    · rcases Nat.le_total i j with h2 | h2
      · exact Or.inl (Or.inr ⟨h, h2⟩)
      · exact Or.inr (Or.inr ⟨h.symm, h2⟩)
    · exact Or.inr (Or.inl h)

instance (s : List Rule) : IsTrans Nat (ruleIndexLe s) where
  trans i j k hij hjk := by
    unfold ruleIndexLe at *
    rcases hij with h1 | ⟨h1, h1'⟩ <;> rcases hjk with h2 | ⟨h2, h2'⟩
    · exact Or.inl (h1.trans h2)
    · exact Or.inl (h2 ▸ h1)
    · exact Or.inl (h1 ▸ h2)
    · exact Or.inr ⟨h1.trans h2, h1'.trans h2'⟩

/-- The depth-sorted index list of `normalize_rules` (Rust:
`indices.sort_by_key(|&i| rule_depth(&stage1[i]))`, a stable sort, whose
result is exactly the `ruleIndexLe`-sorted permutation of the indices). -/
def sortedIndices (s : List Rule) : List Nat :=
  List.insertionSort (ruleIndexLe s) (List.range s.length)

/-- One step of the rename-propagation loop of `normalize_rules`: if the
current rule at index `i` is `Renamed f t`, rewrite every rule at an index
strictly greater than `i`. -/
def applyRenameStep (acc : List Rule) (i : Nat) : List Rule :=
  match acc[i]? with
  | some (Rule.Renamed f t) =>
    acc.take (i + 1) ++ (acc.drop (i + 1)).map (fun r => rewrite_rule r f t)
  | _ => acc

/-- `normalize_rules` from lib.rs: delete propagation, then rename
propagation over the indices in ascending `rule_depth` order. -/
def normalize_rules (rules : List Rule) : List Rule :=
  let stage1 := delete_stage rules
  (sortedIndices stage1).foldl applyRenameStep stage1

/-- `apply_rules_to_list` from lib.rs: flatten rules back into the listing
shown in the editor (deleted entries become the bare sentinel line). -/
def apply_rules_to_list (rules : List Rule) : List String :=
  rules.map (fun r => match r with
    | Rule.Unchanged path => path
    | Rule.Renamed _ t => t
    | Rule.Deleted _ => "- ")

/-! ### Phase 3 — detect new directories -/

/-- `parent_dir` from lib.rs: the parent directory of a path (with its
trailing slash), or `none` at a logical root. -/
def parent_dir (path : String) : Option String :=
  let trimmed := trimEndChar '/' path.data
  match rfindChar '/' trimmed with
  | none => none
  | some pos =>
    if pos = 0 then none
    else
      let parent := String.mk (trimmed.take pos ++ ['/'])
      if parent = "/" ∨ parent = "./" then none else some parent

/-- The chain of ancestors produced by iterating `parent_dir`, nearest
parent first (the walk of `get_missing_parents`); `fuel` bounds the
iteration and `parentChain` supplies a fuel that is always sufficient,
since `parent_dir` strictly shortens its argument. -/
def parentChainAux : Nat → String → List String
  | 0, _ => []
  | fuel + 1, p =>
    match parent_dir p with
    | none => []
    | some q => q :: parentChainAux fuel q

/-- The full ancestor chain of a path, nearest parent first. -/
def parentChain (p : String) : List String :=
  parentChainAux p.data.length p

/-- `get_missing_parents` from lib.rs: walk the ancestor chain of `path`,
collect the ancestors not contained in `existing`, and return them in
top-down order (the Rust loop collects bottom-up and reverses). -/
def get_missing_parents (path : String) (existing : List String) : List String :=
  ((parentChain path).filter (fun a => !(existing.contains a))).reverse

/-- `rule_dest_path` from lib.rs: the destination path of a rule. -/
def rule_dest_path (rule : Rule) : Option String :=
  match rule with
  | Rule.Deleted _ => none
  | Rule.Unchanged path => some path
  | Rule.Renamed _ t => some t

/-- All destination paths of a rule list (the `BTreeSet` that
`add_missing_directories` seeds `existing` with, as a membership list). -/
def dest_paths (rules : List Rule) : List String :=
  rules.filterMap rule_dest_path

/-- The loop of `add_missing_directories` from lib.rs: for each `Renamed`,
emit `Added` rules for the missing ancestors of its destination (top-down)
just before it and record them, plus the rename's destination, in
`existing`; `Unchanged` passes through and is recorded; `Deleted` passes
through and records nothing. The Rust `BTreeSet` is modelled as a
membership list. -/
def amdLoop : List String → List Rule → List FullRule
  | _, [] => []
  | existing, Rule.Renamed f t :: rest =>
    let missing := get_missing_parents t existing
    missing.map FullRule.Added ++
      FullRule.Renamed f t :: amdLoop (existing ++ missing ++ [t]) rest
  | existing, Rule.Unchanged p :: rest =>
    FullRule.Unchanged p :: amdLoop (existing ++ [p]) rest
  | existing, Rule.Deleted p :: rest =>
    FullRule.Deleted p :: amdLoop existing rest

/-- `add_missing_directories` from lib.rs: the known-destination set is
seeded up front with every rule's destination path, then the loop above
runs over the rules. -/
def add_missing_directories (rules : List Rule) : List FullRule :=
  amdLoop (dest_paths rules) rules

/-- The destination path of a `FullRule` (`Deleted` has none). -/
def fullRuleDest (rule : FullRule) : Option String :=
  match rule with
  | FullRule.Unchanged path => some path
  | FullRule.Renamed _ t => some t
  | FullRule.Added path => some path
  | FullRule.Deleted _ => none

/-! ### Phase 4 — edit rules and the transactional applier

`create_edit_rules` from lib.rs maps `FullRule`s to `EditRule`s, dropping
`Deleted`. The applier (`build_and_replace` / `replace_contents` in
`helix-move-bin/src/main.rs` and `EditRule::apply` in lib.rs) is modelled
at the level of relative-path sets: a directory tree is the list of the
relative path strings of its entries (directories carrying their trailing
slash), as produced by `collect_paths`. -/

/-- `create_edit_rules` from lib.rs. -/
def create_edit_rules (rules : List FullRule) : List EditRule :=
  rules.filterMap (fun r => match r with
    | FullRule.Unchanged path => some (EditRule.Unchanged path)
    | FullRule.Renamed f t => some (EditRule.Renamed f t)
    | FullRule.Deleted _ => none
    | FullRule.Added path => some (EditRule.Added path))

/-- The destination path an `EditRule` materializes in the staging root. -/
def editDest (rule : EditRule) : String :=
  match rule with
  | EditRule.Unchanged path => path
  | EditRule.Renamed _ t => t
  | EditRule.Added path => path

/-- Whether the parent directory required for creating `p` is present in
the path list `fs` (no parent needed at the root). -/
def parentOk (fs : List String) (p : String) : Bool :=
  match parent_dir p with
  | none => true
  | some q => fs.contains q

/-- `EditRule::apply` from lib.rs, on the path-set model: each rule
materializes exactly its destination path in the staging root. The
Rust asserts (source existence, matching trailing-slash kind) and the
failure conditions of `fs::create_dir` (parent missing, already present)
and `fs::copy` (parent missing) become `none`. -/
def editRuleApply (oldFs : List String) (staging : List String)
    (rule : EditRule) : Option (List String) :=
  match rule with
  | EditRule.Unchanged p =>
    if oldFs.contains p && parentOk staging p &&
        (!endsSlash p || !staging.contains p) then
      some (staging ++ [p])
    else none
  | EditRule.Renamed f t =>
    if oldFs.contains f && (endsSlash f == endsSlash t) &&
        parentOk staging t && (!endsSlash f || !staging.contains t) then
      some (staging ++ [t])
    else none
  | EditRule.Added p =>
    if endsSlash p && parentOk staging p && !staging.contains p then
      some (staging ++ [p])
    else none

/-- The staging-building loop of `build_and_replace` from
`helix-move-bin/src/main.rs`: apply every rule in order into an initially
empty staging root, reading sources from the target root. -/
def buildStaging (oldFs : List String) (rules : List EditRule) :
    Option (List String) :=
  rules.foldlM (editRuleApply oldFs) []

/-- `replace_contents` from `helix-move-bin/src/main.rs`, on the path-set
model: every top-level entry of the target is deleted recursively (the
target's path set becomes empty) and every top-level entry of the staging
root is moved in (the staging root's whole path set becomes the
target's). -/
def replaceContents (src _dst : List String) : List String :=
  src

/-- `build_and_replace` from `helix-move-bin/src/main.rs`: build the
staging root beside the target, then swap it in; the first component of a
successful result is the target root's final contents, the second is the
staging root's contents (`none` because `replace_contents` removes the
then-empty staging root). -/
def build_and_replace (target : List String) (rules : List EditRule) :
    Option (List String × Option (List String)) :=
  (buildStaging target rules).map (fun st => (replaceContents st target, none))

/-! ### The live normalizer (`helix-move-lsp/src/main.rs`) -/

/-- Strip one trailing carriage return (Rust `lines` treats `\r\n` as a
line ending). -/
def stripCR (l : List Char) : List Char :=
  if l.getLast? = some '\r' then l.dropLast else l

/-- Rust `str::lines`: split on `'\n'`, drop a final empty piece, and strip
the `'\r'` of a `"\r\n"` ending from every line that was terminated by a
newline. -/
def rustLines (s : String) : List String :=
  let parts := splitOnChar '\n' s.data
  let withEnd :=
    match parts.getLast? with
    | some [] => parts.dropLast.map stripCR
    | some l => parts.dropLast.map stripCR ++ [l]
    | none => []
  withEnd.map String.mk

/-- `Backend::apply_change` from `helix-move-lsp/src/main.rs`, as a pure
function of the tracked `current` list and the edited document text: it
returns the new tracked list and the full-document replacement pushed back
to the editor (`none` when nothing is pushed). A line-count mismatch
ignores the event entirely. -/
def apply_change (current : List String) (content : String) :
    List String × Option String :=
  let edited := rustLines content
  if current.length ≠ edited.length then (current, none)
  else
    let rules := List.zipWith pair_rule current edited
    let normalized := normalize_rules rules
    let newList := apply_rules_to_list normalized
    let newText := String.intercalate "\n" newList
    (newList, if newText = content then none else some newText)

/-! ### Spec-side definitions used only to state claims for comparison -/

/-- Second definition following the spec's words (for comparison with the
source's `depth`): the spec defines the depth of a path as its slash count
after stripping any trailing slash. -/
def specDepth (path : String) : Nat :=
  (trimEndChar '/' path.data).count '/'

/-- Second definition following the spec's words (for refutation of the
claim about `add_missing_directories`): in the synthesized `FullRule`
sequence, every destination path referenced by a `Renamed` or `Added` rule
has each of its ancestor directories equal to the destination of some rule
appearing strictly earlier in the sequence. -/
def specC2AncestryHolds (rules : List Rule) : Bool :=
  let out := add_missing_directories rules
  (List.range out.length).all (fun k =>
    match out.getD k (FullRule.Deleted "") with
    | FullRule.Renamed _ t =>
      (parentChain t).all (fun a => ((out.take k).filterMap fullRuleDest).contains a)
    | FullRule.Added t =>
      (parentChain t).all (fun a => ((out.take k).filterMap fullRuleDest).contains a)
    | _ => true)

/-! ### Claim theorems -/

/-- Claim C6: on original `["a/", "a/x"]` and edited `["b/", "a/x"]`,
`build_rules` yields `[Renamed a/ b/, Unchanged a/x]`, `normalize_rules`
cascades the rename to `[Renamed a/ b/, Renamed a/x b/x]`, and
`add_missing_directories` yields exactly those two rules with no `Added`
rules inserted. -/
theorem claim_C6_round_trip :
    build_rules ["a/", "a/x"] ["b/", "a/x"] =
      some [Rule.Renamed "a/" "b/", Rule.Unchanged "a/x"] ∧
    normalize_rules [Rule.Renamed "a/" "b/", Rule.Unchanged "a/x"] =
      [Rule.Renamed "a/" "b/", Rule.Renamed "a/x" "b/x"] ∧
    add_missing_directories [Rule.Renamed "a/" "b/", Rule.Renamed "a/x" "b/x"] =
      [FullRule.Renamed "a/" "b/", FullRule.Renamed "a/x" "b/x"] :=
  ⟨rfl, rfl, rfl⟩

/-- Claim C10: `rewrite_path` returns its input unchanged when the path
equals the rename's `from`, so a rule whose entire path equals the
propagating rename's source is never rewritten: `normalize_rules` leaves
`Unchanged a/` as is next to `Renamed a/ b/`. -/
theorem claim_C10_self_path_not_rewritten :
    (∀ p t : String, rewrite_path p p t = p) ∧
    normalize_rules [Rule.Renamed "a/" "b/", Rule.Unchanged "a/"] =
      [Rule.Renamed "a/" "b/", Rule.Unchanged "a/"] := by
  constructor
  · intro p t
    unfold rewrite_path
    split
    · rw [if_pos rfl]
    · rfl
  · rfl

/-- Claim C3 (refuted): `normalize_rules` is not idempotent. On
`[Renamed a/ a/b/, Unchanged a/x]` (original listing `["a/", "a/x"]`
edited to `["a/b/", "a/x"]`) one pass yields
`[Renamed a/ a/b/, Renamed a/x a/b/x]`, but a second pass rewrites the
cascaded destination again, to `a/b/b/x`, because the rename's `to` is
itself segment-prefixed by its `from`. -/
theorem claim_C3_not_idempotent :
    normalize_rules [Rule.Renamed "a/" "a/b/", Rule.Unchanged "a/x"] =
      [Rule.Renamed "a/" "a/b/", Rule.Renamed "a/x" "a/b/x"] ∧
    normalize_rules (normalize_rules [Rule.Renamed "a/" "a/b/", Rule.Unchanged "a/x"]) =
      [Rule.Renamed "a/" "a/b/", Rule.Renamed "a/x" "a/b/b/x"] ∧
    normalize_rules (normalize_rules [Rule.Renamed "a/" "a/b/", Rule.Unchanged "a/x"]) ≠
      normalize_rules [Rule.Renamed "a/" "a/b/", Rule.Unchanged "a/x"] := by
  refine ⟨rfl, rfl, ?_⟩
  decide

/-- Claim C9: when the edited document's line count differs from the
tracked current list's length, `apply_change` ignores the event: the
tracked list is returned unchanged and no replacement text is pushed. -/
theorem claim_C9_length_mismatch_ignored (current : List String) (content : String)
    (h : (rustLines content).length ≠ current.length) :
    apply_change current content = (current, none) := by
  unfold apply_change
  rw [if_pos (Ne.symm h)]

/-- Witness for `claim_C9_length_mismatch_ignored` at a concrete input. -/
theorem claim_C9_witness :
    (rustLines "x").length ≠ ([] : List String).length ∧
    apply_change [] "x" = ([], none) :=
  ⟨by decide, claim_C9_length_mismatch_ignored [] "x" (by decide)⟩

/-- Counterexample to claim C1 as stated: the delete-propagation step uses
a raw string prefix test, not a segment-aware one. With rules
`[Deleted a, Unchanged ab]`, the entry `ab` is converted to `Deleted` even
though the deleted path `a` is not a directory-segment path prefix of
`ab`. -/
theorem claim_C1_counterexample :
    delete_stage [Rule.Deleted "a", Rule.Unchanged "ab"] =
      [Rule.Deleted "a", Rule.Deleted "ab"] ∧
    normalize_rules [Rule.Deleted "a", Rule.Unchanged "ab"] =
      [Rule.Deleted "a", Rule.Deleted "ab"] ∧
    delete_paths [Rule.Deleted "a", Rule.Unchanged "ab"] = ["a"] ∧
    path_starts_with "ab" "a" = false := by
  refine ⟨rfl, rfl, rfl, ?_⟩
  decide

/-- Counterexample to claim C2 as stated: `add_missing_directories` seeds
its known-destination set with every rule's destination up front, so for
the normalized list `[Renamed x c/x, Unchanged c/]` the destination `c/x`
has its ancestor `c/` established only by a later rule, and no `Added`
rule is synthesized before the rename. -/
theorem claim_C2_counterexample :
    normalize_rules [Rule.Renamed "x" "c/x", Rule.Unchanged "c/"] =
      [Rule.Renamed "x" "c/x", Rule.Unchanged "c/"] ∧
    add_missing_directories [Rule.Renamed "x" "c/x", Rule.Unchanged "c/"] =
      [FullRule.Renamed "x" "c/x", FullRule.Unchanged "c/"] ∧
    parentChain "c/x" = ["c/"] ∧
    specC2AncestryHolds [Rule.Renamed "x" "c/x", Rule.Unchanged "c/"] = false := by
  refine ⟨rfl, rfl, rfl, ?_⟩
  decide

/-- Counterexample to claim C7 as stated: `build_rules` does not enforce
that a rename preserves directory-ness; editing the listing entry `a/` to
`b` yields `Renamed a/ b` whose `from` ends in a slash while its `to` does
not, and `normalize_rules` keeps that rule. -/
theorem claim_C7_counterexample :
    build_rules ["a/"] ["b"] = some [Rule.Renamed "a/" "b"] ∧
    normalize_rules [Rule.Renamed "a/" "b"] = [Rule.Renamed "a/" "b"] ∧
    endsSlash "a/" = true ∧
    endsSlash "b" = false := by
  refine ⟨rfl, rfl, ?_, ?_⟩ <;> decide

/-- Counterexample to claim C8 as stated: the depth used by
`normalize_rules` is the raw slash count with no stripping of a trailing
slash, so the directory `a/` has depth 1, not 0. -/
theorem claim_C8_counterexample :
    depth "a/" = 1 ∧ specDepth "a/" = 0 ∧ depth "a/" ≠ specDepth "a/" := by
  refine ⟨?_, ?_, ?_⟩ <;> decide

/-- Claim C5: `build_rules` preserves the common length, classifies each
index as Unchanged / Deleted (deletion-sentinel gained) / Renamed exactly
as the claim states, and fails (contract violation, embedded as `none`)
when the input lengths differ. -/
theorem claim_C5_build_rules (original new : List String) :
    (∀ rules, build_rules original new = some rules →
      rules.length = original.length ∧
      ∀ (i : Nat) (a b : String), original[i]? = some a → new[i]? = some b →
        rules[i]? = some (
          if a = b then Rule.Unchanged a
          else if strStartsWith b "- " = true ∧ strStartsWith a "- " = false then
            Rule.Deleted a
          else Rule.Renamed a b)) ∧
    (original.length ≠ new.length → build_rules original new = none) := by
  constructor
  · intro rules hr
    unfold build_rules at hr
    split at hr
    case isTrue hlen =>
      injection hr with hr
      subst hr
      constructor
      · rw [List.length_zipWith, hlen, Nat.min_self]
      · intro i a b ha hb
        rw [List.getElem?_zipWith, ha, hb]
        show some (pair_rule a b) = _
        congr 1
        unfold pair_rule
        by_cases hab : a = b
        · rw [if_pos hab, if_pos hab]
        · cases h1 : strStartsWith b "- " <;> cases h2 : strStartsWith a "- " <;>
            simp [hab, h1, h2]
    case isFalse =>
      exact absurd hr (by simp)
  · intro hne
    unfold build_rules
    rw [if_neg hne]

/-- Witness for `claim_C5_build_rules`: both halves applied at concrete
inputs (a deletion-sentinel slot, and a length mismatch). -/
theorem claim_C5_witness :
    ([Rule.Unchanged "a", Rule.Deleted "b", Rule.Renamed "c/" "d/"] : List Rule)[1]? =
      some (if ("b" : String) = "- x" then Rule.Unchanged "b"
        else if strStartsWith "- x" "- " = true ∧ strStartsWith "b" "- " = false then
          Rule.Deleted "b"
        else Rule.Renamed "b" "- x") ∧
    build_rules ["a"] [] = none :=
  ⟨((claim_C5_build_rules ["a", "b", "c/"] ["a", "- x", "d/"]).1
      [Rule.Unchanged "a", Rule.Deleted "b", Rule.Renamed "c/" "d/"] (by rfl)).2
      1 "b" "- x" rfl rfl,
   (claim_C5_build_rules ["a"] []).2 (by decide)⟩

/-- A successful `EditRule` application appends exactly the rule's
destination path to the staging root's contents. -/
theorem editRuleApply_success (oldFs staging : List String) (rule : EditRule)
    (st : List String) (h : editRuleApply oldFs staging rule = some st) :
    st = staging ++ [editDest rule] := by
  cases rule with
  | Unchanged p =>
    simp only [editRuleApply] at h
    split at h
    · injection h with h
      rw [← h]
      rfl
    · exact absurd h (by simp)
  | Renamed f t =>
    simp only [editRuleApply] at h
    split at h
    · injection h with h
      rw [← h]
      rfl
    · exact absurd h (by simp)
  | Added p =>
    simp only [editRuleApply] at h
    split at h
    · injection h with h
      rw [← h]
      rfl
    · exact absurd h (by simp)

/-- The staging-building fold materializes exactly the destination paths of
its rules, in order, after whatever the staging root already held. -/
theorem buildStaging_go (oldFs : List String) :
    ∀ (rules : List EditRule) (acc st : List String),
      List.foldlM (editRuleApply oldFs) acc rules = some st →
      st = acc ++ rules.map editDest := by
  intro rules
  induction rules with
  | nil =>
    intro acc st h
    injection h with h
    rw [← h]
    simp
  | cons r rest ih =>
    intro acc st h
    rw [List.foldlM_cons] at h
    cases h1 : editRuleApply oldFs acc r with
    | none => rw [h1] at h; exact absurd h (by simp)
    | some acc1 =>
      rw [h1] at h
      simp only [Option.bind_eq_bind, Option.some_bind] at h
      rw [ih acc1 st h, editRuleApply_success oldFs acc r acc1 h1]
      simp

/-- Claim C4: after a successful `build_and_replace` run, the target root's
contents are exactly the destination paths implied by the `EditRule`
sequence (every Unchanged path, Renamed to-path, and Added directory, and
nothing else — in particular no path that existed only in the original
tree), and the staging root no longer exists. -/
theorem claim_C4_apply_safety (target : List String) (rules : List EditRule)
    (finalTarget : List String) (stagingAfter : Option (List String))
    (h : build_and_replace target rules = some (finalTarget, stagingAfter)) :
    finalTarget = rules.map editDest ∧
    stagingAfter = none ∧
    (∀ p, p ∈ finalTarget ↔ p ∈ rules.map editDest) ∧
    (∀ p, p ∈ target → p ∉ rules.map editDest → p ∉ finalTarget) := by
  unfold build_and_replace at h
  cases hb : buildStaging target rules with
  | none => rw [hb] at h; exact absurd h (by simp)
  | some st =>
    rw [hb] at h
    simp only [Option.map_some'] at h
    injection h with h
    have h1 : finalTarget = replaceContents st target := congrArg Prod.fst h.symm
    have h2 : stagingAfter = none := congrArg Prod.snd h.symm
    have hst : st = [] ++ rules.map editDest := buildStaging_go target rules [] st hb
    have hft : finalTarget = rules.map editDest := by
      rw [h1, hst]; rfl
    refine ⟨hft, h2, ?_, ?_⟩
    · intro p; rw [hft]
    · intro p _ hpd; rw [hft]; exact hpd

/-- Witness for `claim_C4_apply_safety`: the rename-cascade plan of the
spec's round-trip example applied to the tree `[a/, a/x]` succeeds and
leaves exactly `[b/, b/x]` with the staging root gone. -/
theorem claim_C4_witness :
    build_and_replace ["a/", "a/x"] [EditRule.Renamed "a/" "b/", EditRule.Renamed "a/x" "b/x"] =
      some (["b/", "b/x"], none) ∧
    (["b/", "b/x"] : List String) =
      ([EditRule.Renamed "a/" "b/", EditRule.Renamed "a/x" "b/x"]).map editDest :=
  ⟨rfl,
   (claim_C4_apply_safety ["a/", "a/x"]
      [EditRule.Renamed "a/" "b/", EditRule.Renamed "a/x" "b/x"]
      ["b/", "b/x"] none rfl).1⟩

/-- Whether a rule is a `Deleted` rule. -/
def isDeletedRule (rule : Rule) : Bool :=
  match rule with
  | Rule.Deleted _ => true
  | _ => false

/-- The `from`/`path` of a rule — the field the delete-propagation step
tests against the deleted paths. -/
def ruleFromPath (rule : Rule) : String :=
  match rule with
  | Rule.Unchanged path => path
  | Rule.Renamed f _ => f
  | Rule.Deleted path => path

/-- Claim C1 (amended): in `normalize_rules`' delete-propagation step, a
non-Deleted rule is converted to Deleted if and only if its `from`/`path`
has some Deleted rule's path as a raw string prefix (`str::starts_with`,
not a segment-aware test); every rule not matching that condition, and
every already-Deleted rule, is left unchanged by this step. -/
theorem claim_C1_delete_stage (rules : List Rule) (i : Nat) (r : Rule)
    (hr : rules[i]? = some r) :
    (isDeletedRule r = false →
      ((delete_stage rules)[i]? = some (Rule.Deleted (ruleFromPath r)) ↔
        (delete_paths rules).any (fun d => strStartsWith (ruleFromPath r) d) = true)) ∧
    ((delete_paths rules).any (fun d => strStartsWith (ruleFromPath r) d) = false →
      (delete_stage rules)[i]? = some r) ∧
    (isDeletedRule r = true → (delete_stage rules)[i]? = some r) := by
  have hds : (delete_stage rules)[i]? =
      some (apply_deletes r (delete_paths rules)) := by
    unfold delete_stage
    rw [List.getElem?_map, hr]
    rfl
  rw [hds]
  cases r with
  | Unchanged p =>
    refine ⟨fun _ => ?_, fun hno => ?_, fun hcontra => by exact absurd hcontra (by simp [isDeletedRule])⟩
    · cases hany : (delete_paths rules).any (fun d => strStartsWith p d) with
      | true => simp [apply_deletes, hany, ruleFromPath]
      | false => simp [apply_deletes, hany, ruleFromPath]
    · have hno' : ((delete_paths rules).any fun d => strStartsWith p d) = false := hno
      simp [apply_deletes, hno']
  | Renamed f t =>
    refine ⟨fun _ => ?_, fun hno => ?_, fun hcontra => by exact absurd hcontra (by simp [isDeletedRule])⟩
    · cases hany : (delete_paths rules).any (fun d => strStartsWith f d) with
      | true => simp [apply_deletes, hany, ruleFromPath]
      | false => simp [apply_deletes, hany, ruleFromPath]
    · have hno' : ((delete_paths rules).any fun d => strStartsWith f d) = false := hno
      simp [apply_deletes, hno']
  | Deleted p =>
    exact ⟨fun hcontra => absurd hcontra (by simp [isDeletedRule]),
      fun _ => by simp [apply_deletes],
      fun _ => by simp [apply_deletes]⟩

/-- Witness for `claim_C1_delete_stage`: deleting `a/` converts the
unchanged entry `a/x` into `Deleted a/x`. -/
theorem claim_C1_witness :
    (delete_stage [Rule.Deleted "a/", Rule.Unchanged "a/x"])[1]? =
      some (Rule.Deleted "a/x") :=
  ((claim_C1_delete_stage [Rule.Deleted "a/", Rule.Unchanged "a/x"] 1
      (Rule.Unchanged "a/x") rfl).1 rfl).2 (by decide)

/-- An ancestor of `path` that is not in `existing` is collected by
`get_missing_parents`. -/
theorem mem_get_missing_parents (t a : String) (existing : List String)
    (ha : a ∈ parentChain t) (hnot : a ∉ existing) :
    a ∈ get_missing_parents t existing := by
  unfold get_missing_parents
  rw [List.mem_reverse, List.mem_filter]
  exact ⟨ha, by simp [hnot]⟩

/-- Invariant of the `add_missing_directories` loop: if every destination
path of the remaining rules is already in `existing`, then every ancestor
of a `Renamed` rule's destination is either in `existing` or created by an
`Added` rule emitted earlier in the loop's output. -/
theorem amdLoop_ancestors :
    ∀ (rules : List Rule) (existing : List String),
      (∀ d ∈ dest_paths rules, d ∈ existing) →
      ∀ (k : Nat) (f t : String),
        (amdLoop existing rules)[k]? = some (FullRule.Renamed f t) →
        ∀ a ∈ parentChain t,
          a ∈ existing ∨
          ∃ j, j < k ∧ (amdLoop existing rules)[j]? = some (FullRule.Added a) := by
  intro rules
  induction rules with
  | nil =>
    intro existing _ k f t hk
    simp [amdLoop] at hk
  | cons r rest ih =>
    intro existing hsub k f t hk a ha
    cases r with
    | Unchanged p =>
      simp only [amdLoop] at hk ⊢
      cases k with
      | zero => rw [List.getElem?_cons_zero] at hk; simp at hk
      | succ k =>
        rw [List.getElem?_cons_succ] at hk
        have hsub' : ∀ d ∈ dest_paths rest, d ∈ existing ++ [p] := by
          intro d hd
          refine List.mem_append_left _ (hsub d ?_)
          simp [dest_paths, rule_dest_path, List.filterMap_cons]
          right
          simpa [dest_paths] using hd
        rcases ih (existing ++ [p]) hsub' k f t hk a ha with hmem | ⟨j, hj, hjq⟩
        · rcases List.mem_append.1 hmem with h | h
          · exact Or.inl h
          · have : a = p := by simpa using h
            subst this
            exact Or.inl (hsub a (by simp [dest_paths, rule_dest_path, List.filterMap_cons]))
        · exact Or.inr ⟨j + 1, Nat.succ_lt_succ hj, by rwa [List.getElem?_cons_succ]⟩
    | Deleted p =>
      simp only [amdLoop] at hk ⊢
      cases k with
      | zero => rw [List.getElem?_cons_zero] at hk; simp at hk
      | succ k =>
        rw [List.getElem?_cons_succ] at hk
        have hsub' : ∀ d ∈ dest_paths rest, d ∈ existing := by
          intro d hd
          refine hsub d ?_
          simpa [dest_paths, rule_dest_path, List.filterMap_cons] using hd
        rcases ih existing hsub' k f t hk a ha with hmem | ⟨j, hj, hjq⟩
        · exact Or.inl hmem
        · exact Or.inr ⟨j + 1, Nat.succ_lt_succ hj, by rwa [List.getElem?_cons_succ]⟩
    | Renamed f0 t0 =>
      have ht0 : t0 ∈ existing :=
        hsub t0 (by simp [dest_paths, rule_dest_path, List.filterMap_cons])
      have hsub' : ∀ d ∈ dest_paths rest,
          d ∈ existing ++ get_missing_parents t0 existing ++ [t0] := by
        intro d hd
        refine List.mem_append_left _ (List.mem_append_left _ (hsub d ?_))
        simp [dest_paths, rule_dest_path, List.filterMap_cons]
        right
        simpa [dest_paths] using hd
      simp only [amdLoop] at hk ⊢
      set missing := get_missing_parents t0 existing with hmdef
      set rec := amdLoop (existing ++ missing ++ [t0]) rest with hrecdef
      have hmlen : (missing.map FullRule.Added).length = missing.length :=
        List.length_map _ _
      rcases Nat.lt_trichotomy k missing.length with hkm | hkm | hkm
      · rw [List.getElem?_append_left (by omega)] at hk
        rw [List.getElem?_map] at hk
        cases hx : missing[k]? with
        | none => rw [hx] at hk; simp at hk
        | some x => rw [hx] at hk; simp at hk
      · subst hkm
        rw [List.getElem?_append_right (by omega)] at hk
        rw [hmlen, Nat.sub_self, List.getElem?_cons_zero] at hk
        injection hk with hk
        injection hk with hf ht
        subst hf
        subst ht
        by_cases hex : a ∈ existing
        · exact Or.inl hex
        · have ham : a ∈ missing := mem_get_missing_parents t0 a existing ha hex
          rcases List.mem_iff_getElem?.1 ham with ⟨j, hja⟩
          have hjlt : j < missing.length := by
            rcases List.getElem?_eq_some_iff.1 hja with ⟨hlt, _⟩
            exact hlt
          refine Or.inr ⟨j, by omega, ?_⟩
          rw [List.getElem?_append_left (by omega), List.getElem?_map, hja]
          rfl
      · have hk' : rec[k - missing.length - 1]? = some (FullRule.Renamed f t) := by
          rw [List.getElem?_append_right (by omega), hmlen] at hk
          have hsucc : k - missing.length = (k - missing.length - 1) + 1 := by omega
          rw [hsucc, List.getElem?_cons_succ] at hk
          exact hk
        rcases ih (existing ++ missing ++ [t0]) hsub' (k - missing.length - 1) f t hk' a ha with
          hmem | ⟨j', hj', hjq⟩
        · rcases List.mem_append.1 hmem with h1 | h2
          · rcases List.mem_append.1 h1 with h1a | h1b
            · exact Or.inl h1a
            · rcases List.mem_iff_getElem?.1 h1b with ⟨j, hja⟩
              have hjlt : j < missing.length := by
                rcases List.getElem?_eq_some_iff.1 hja with ⟨hlt, _⟩
                exact hlt
              refine Or.inr ⟨j, by omega, ?_⟩
              rw [List.getElem?_append_left (by omega), List.getElem?_map, hja]
              rfl
          · have : a = t0 := by simpa using h2
            subst this
            exact Or.inl ht0
        · refine Or.inr ⟨missing.length + 1 + j', by omega, ?_⟩
          rw [List.getElem?_append_right (by omega), hmlen]
          have : missing.length + 1 + j' - missing.length = j' + 1 := by omega
          rw [this, List.getElem?_cons_succ]
          exact hjq

/-- Claim C2 (amended): `add_missing_directories` seeds its known set with
every rule's destination up front; every ancestor of a `Renamed` rule's
destination is then either the destination of some rule of the input
(possibly a later one) or created by an `Added` rule emitted strictly
earlier in the synthesized sequence. -/
theorem claim_C2_missing_parents (rules : List Rule) (k : Nat) (f t : String)
    (hk : (add_missing_directories rules)[k]? = some (FullRule.Renamed f t)) :
    ∀ a ∈ parentChain t,
      a ∈ dest_paths rules ∨
      ∃ j, j < k ∧ (add_missing_directories rules)[j]? = some (FullRule.Added a) :=
  amdLoop_ancestors rules (dest_paths rules) (fun _ hd => hd) k f t hk

/-- Witness for `claim_C2_missing_parents`: renaming `a/x` to `b/x` with no
other rule synthesizes `Added b/` before the rename. -/
theorem claim_C2_witness :
    ("b/" ∈ dest_paths [Rule.Renamed "a/x" "b/x"] ∨
      ∃ j, j < 1 ∧ (add_missing_directories [Rule.Renamed "a/x" "b/x"])[j]? =
        some (FullRule.Added "b/")) ∧
    add_missing_directories [Rule.Renamed "a/x" "b/x"] =
      [FullRule.Added "b/", FullRule.Renamed "a/x" "b/x"] :=
  ⟨claim_C2_missing_parents [Rule.Renamed "a/x" "b/x"] 1 "a/x" "b/x" rfl "b/" (by decide),
   rfl⟩

/-- The code's `depth` equals the spec's stripped slash count plus the
number of stripped trailing slashes: the two agree exactly on paths with
no trailing slash. -/
theorem depth_eq_specDepth_add (p : String) :
    depth p = specDepth p + (p.data.length - (trimEndChar '/' p.data).length) := by
  unfold depth specDepth trimEndChar
  have hsplit : p.data.reverse.takeWhile (fun c => c = '/') ++
      p.data.reverse.dropWhile (fun c => c = '/') = p.data.reverse :=
    List.takeWhile_append_dropWhile _ _
  have h1 : p.data.reverse.count '/' = p.data.count '/' := List.count_reverse _ _
  have h2 : ((p.data.reverse.dropWhile (fun c => c = '/')).reverse).count '/' =
      (p.data.reverse.dropWhile (fun c => c = '/')).count '/' := List.count_reverse _ _
  have h3 : (p.data.reverse.takeWhile (fun c => c = '/')).count '/' =
      (p.data.reverse.takeWhile (fun c => c = '/')).length := by
    refine List.count_eq_length.2 (fun b hb => ?_)
    have := List.mem_takeWhile_imp hb
    exact (of_decide_eq_true this).symm
  have h4 : (p.data.reverse.takeWhile (fun c => c = '/')).length +
      (p.data.reverse.dropWhile (fun c => c = '/')).length = p.data.length := by
    have := congrArg List.length hsplit
    rw [List.length_append, List.length_reverse] at this
    exact this
  have h5 : ((p.data.reverse.dropWhile (fun c => c = '/')).reverse).length =
      (p.data.reverse.dropWhile (fun c => c = '/')).length := List.length_reverse _
  have h6 : p.data.reverse.count '/' =
      (p.data.reverse.takeWhile (fun c => c = '/')).count '/' +
      (p.data.reverse.dropWhile (fun c => c = '/')).count '/' := by
    conv_lhs => rw [← hsplit]
    exact List.count_append _ _ _
  have h7 : (p.data.reverse.dropWhile (fun c => c = '/')).count '/' ≤
      (p.data.reverse.dropWhile (fun c => c = '/')).length := List.count_le_length _ _
  omega

/-- The rename-propagation step never modifies the rules at or before the
index of the propagating rename. -/
theorem applyRenameStep_take (acc : List Rule) (i : Nat) :
    (applyRenameStep acc i).take (i + 1) = acc.take (i + 1) := by
  unfold applyRenameStep
  split
  case h_1 f t heq =>
    have hlt : i < acc.length := by
      rcases List.getElem?_eq_some_iff.1 heq with ⟨hlt, _⟩
      exact hlt
    have hlen : (acc.take (i + 1)).length = i + 1 := by
      rw [List.length_take]
      omega
    rw [List.take_left' hlen]
  case h_2 => rfl

/-- Claim C8 (amended): the depth used to order rules is the raw slash
count of the path, with no stripping of a trailing slash (it equals the
spec's stripped count plus the number of trailing slashes, so `a/` has
depth 1, not 0); the rename-propagation pass visits the indices sorted in
ascending depth (a permutation of all positions, ties in index order), and
each propagation step rewrites only entries strictly after the
propagating rename's position. -/
theorem claim_C8_depth_and_order :
    (∀ p : String,
      depth p = specDepth p + (p.data.length - (trimEndChar '/' p.data).length)) ∧
    (∀ s : List Rule, List.Sorted (ruleIndexLe s) (sortedIndices s) ∧
      (sortedIndices s).Perm (List.range s.length)) ∧
    (∀ (acc : List Rule) (i : Nat),
      (applyRenameStep acc i).take (i + 1) = acc.take (i + 1)) :=
  ⟨depth_eq_specDepth_add,
   fun _ => ⟨List.sorted_insertionSort _ _, List.perm_insertionSort _ _⟩,
   applyRenameStep_take⟩

/-- `splitOnChar` always produces at least one piece. -/
theorem splitOnChar_ne_nil (sep : Char) (l : List Char) : splitOnChar sep l ≠ [] := by
  cases l with
  | nil => simp [splitOnChar]
  | cons c rest =>
    unfold splitOnChar
    cases h : splitOnChar sep rest with
    | nil => simp
    | cons p ps => by_cases hc : c = sep <;> simp [hc]

/-- A value from `getLast?` is a member of the list. -/
theorem mem_of_getLast?_eq {α : Type} (l : List α) (a : α)
    (h : l.getLast? = some a) : a ∈ l := by
  rcases List.getLast?_eq_some_iff.1 h with ⟨ys, rfl⟩
  simp

/-- Unfolding equation for `splitOnChar` on a cons cell. -/
theorem splitOnChar_cons_eq (sep c : Char) (rest : List Char)
    (p : List Char) (ps : List (List Char)) (h : splitOnChar sep rest = p :: ps) :
    splitOnChar sep (c :: rest) =
      if c = sep then [] :: p :: ps else (c :: p) :: ps := by
  unfold splitOnChar
  rw [h]

/-- The separator never occurs inside a piece of `splitOnChar`. -/
theorem sep_not_mem_splitOnChar (sep : Char) :
    ∀ (l : List Char) (piece : List Char),
      piece ∈ splitOnChar sep l → sep ∉ piece := by
  intro l
  induction l with
  | nil =>
    intro piece hp
    simp [splitOnChar] at hp
    simp [hp]
  | cons c rest ih =>
    intro piece hp
    cases h : splitOnChar sep rest with
    | nil => exact absurd h (splitOnChar_ne_nil sep rest)
    | cons p ps =>
      rw [splitOnChar_cons_eq sep c rest p ps h] at hp
      by_cases hc : c = sep
      · rw [if_pos hc] at hp
        rcases List.mem_cons.1 hp with h1 | h2
        · subst h1; simp
        · exact ih piece (by rw [h]; exact h2)
      · rw [if_neg hc] at hp
        rcases List.mem_cons.1 hp with h1 | h2
        · subst h1
          intro hmem
          rcases List.mem_cons.1 hmem with h3 | h4
          · exact hc h3.symm
          · exact ih p (by rw [h]; exact List.mem_cons_self p ps) h4
        · exact ih piece (by rw [h]; exact List.mem_cons_of_mem p h2)

/-- If a nonempty character list does not end with the separator, the last
piece of its `splitOnChar` is nonempty. -/
theorem splitOnChar_getLast_ne_nil (sep : Char) :
    ∀ (l : List Char), l ≠ [] → l.getLast? ≠ some sep →
      ∃ q, (splitOnChar sep l).getLast? = some q ∧ q ≠ [] := by
  intro l
  induction l with
  | nil => intro h; exact absurd rfl h
  | cons c rest ih =>
    intro _ hlast
    cases hrest : rest with
    | nil =>
      subst hrest
      have hc : c ≠ sep := by
        intro hcs
        exact hlast (by simp [hcs])
      refine ⟨[c], ?_, by simp⟩
      rw [splitOnChar_cons_eq sep c [] [] [] rfl, if_neg hc]
      rfl
    | cons c2 rest2 =>
      subst hrest
      have hlast' : (c2 :: rest2).getLast? ≠ some sep := by
        simpa using hlast
      rcases ih (by simp) hlast' with ⟨q, hq, hqne⟩
      cases hsp : splitOnChar sep (c2 :: rest2) with
      | nil => exact absurd hsp (splitOnChar_ne_nil sep (c2 :: rest2))
      | cons p ps =>
        rw [hsp] at hq
        rw [splitOnChar_cons_eq sep c (c2 :: rest2) p ps hsp]
        by_cases hc : c = sep
        · rw [if_pos hc]
          exact ⟨q, by simpa using hq, hqne⟩
        · rw [if_neg hc]
          cases hps : ps with
          | nil =>
            subst hps
            have : p = q := by simpa using hq
            subst this
            exact ⟨c :: p, by simp, by simp⟩
          | cons p2 ps2 =>
            subst hps
            exact ⟨q, by simpa using hq, hqne⟩

/-- The last character of a `joinChar` is the last character of its last
piece, provided that piece is nonempty. -/
theorem joinChar_getLast (sep : Char) :
    ∀ (parts : List (List Char)) (q : List Char),
      parts.getLast? = some q → q ≠ [] →
      (joinChar sep parts).getLast? = q.getLast? := by
  intro parts
  induction parts with
  | nil => intro q hq; simp at hq
  | cons p rest ih =>
    intro q hq hqne
    cases hrest : rest with
    | nil =>
      subst hrest
      have : p = q := by simpa using hq
      subst this
      rfl
    | cons p2 rest2 =>
      subst hrest
      have hq' : (p2 :: rest2).getLast? = some q := by simpa using hq
      have hIH : (joinChar sep (p2 :: rest2)).getLast? = q.getLast? :=
        ih q hq' hqne
      have hqlast : ∃ c, q.getLast? = some c := by
        cases hql : q.getLast? with
        | none => exact absurd (List.getLast?_eq_none_iff.1 hql) hqne
        | some c => exact ⟨c, rfl⟩
      rcases hqlast with ⟨c, hc⟩
      show (p ++ sep :: joinChar sep (p2 :: rest2)).getLast? = q.getLast?
      rw [List.getLast?_append]
      have h2 : (sep :: joinChar sep (p2 :: rest2)).getLast? = some c := by
        have h3 : (sep :: joinChar sep (p2 :: rest2)).getLast? =
            ([sep] ++ joinChar sep (p2 :: rest2)).getLast? := rfl
        rw [h3, List.getLast?_append, hIH, hc]
        rfl
      rw [h2, hc]
      rfl

/-- The trimmed list never ends with the trimmed separator. -/
theorem trimEndChar_getLast (sep : Char) (l : List Char) :
    (trimEndChar sep l).getLast? ≠ some sep := by
  unfold trimEndChar
  rw [List.getLast?_reverse]
  intro h
  have h2 := List.head?_dropWhile_not (fun c => decide (c = sep)) l.reverse
  rw [h] at h2
  simp at h2

/-- Trimming is the identity on lists that do not end with the separator. -/
theorem trimEndChar_eq_self (sep : Char) (l : List Char)
    (h : l.getLast? ≠ some sep) : trimEndChar sep l = l := by
  unfold trimEndChar
  cases hr : l.reverse with
  | nil =>
    have h0 : l = [] := List.reverse_eq_nil_iff.1 hr
    subst h0
    rfl
  | cons c cs =>
    have hc : c ≠ sep := by
      intro hcs
      apply h
      rw [← List.head?_reverse, hr, hcs]
      rfl
    rw [List.dropWhile_cons, if_neg (by simp [hc])]
    rw [← hr, List.reverse_reverse]

/-- The last element of a nonempty `drop` is the last element of the
list. -/
theorem getLast?_drop_of_ne_nil {α : Type} (l : List α) (n : Nat)
    (h : l.drop n ≠ []) : (l.drop n).getLast? = l.getLast? := by
  conv_rhs => rw [← List.take_append_drop n l]
  rw [List.getLast?_append]
  cases hd : (l.drop n).getLast? with
  | none => exact absurd (List.getLast?_eq_none_iff.1 hd) h
  | some a => rfl

/-- `rewrite_path` preserves the trailing-slash-ness of the rewritten
path: the `from`-prefix substitution keeps a trailing slash exactly when
the original path had one. -/
theorem rewrite_path_endsSlash (p f t : String) :
    endsSlash (rewrite_path p f t) = endsSlash p := by
  unfold rewrite_path
  by_cases h1 : path_starts_with p f = true
  · rw [if_pos h1]
    by_cases h2 : p = f
    · rw [if_pos h2]
    · rw [if_neg h2]
      show endsSlash (if endsSlash p = true
          then String.mk (joinChar '/'
            (pathSegments t ++ (pathSegments p).drop (pathSegments f).length) ++ ['/'])
          else String.mk (joinChar '/'
            (pathSegments t ++ (pathSegments p).drop (pathSegments f).length))) =
        endsSlash p
      cases hes : endsSlash p with
      | true =>
        rw [if_pos rfl]
        show decide ((joinChar '/'
          (pathSegments t ++ (pathSegments p).drop (pathSegments f).length) ++
            ['/']).getLast? = some '/') = true
        rw [List.getLast?_concat]
        simp
      | false =>
        rw [if_neg (by simp)]
        show decide ((joinChar '/'
          (pathSegments t ++ (pathSegments p).drop (pathSegments f).length)).getLast? =
            some '/') = false
        rw [decide_eq_false_iff_not]
        have hplast : p.data.getLast? ≠ some '/' := by
          unfold endsSlash at hes
          rw [decide_eq_false_iff_not] at hes
          exact hes
        have htrim : trimEndChar '/' p.data = p.data :=
          trimEndChar_eq_self '/' p.data hplast
        by_cases hd : (pathSegments p).drop (pathSegments f).length = []
        · rw [hd, List.append_nil]
          by_cases htt : trimEndChar '/' t.data = []
          · have hseg : pathSegments t = [[]] := by
              unfold pathSegments
              rw [htt]
              rfl
            rw [hseg]
            simp [joinChar]
          · have htlast := trimEndChar_getLast '/' t.data
            obtain ⟨q, hq, hqne⟩ :=
              splitOnChar_getLast_ne_nil '/' (trimEndChar '/' t.data) htt htlast
            have hqseg : (pathSegments t).getLast? = some q := by
              unfold pathSegments
              exact hq
            have hj : (joinChar '/' (pathSegments t)).getLast? = q.getLast? :=
              joinChar_getLast '/' _ q hqseg hqne
            have hqmem : q ∈ splitOnChar '/' (trimEndChar '/' t.data) :=
              mem_of_getLast?_eq _ q hq
            have hns : '/' ∉ q := sep_not_mem_splitOnChar '/' _ q hqmem
            rw [hj]
            intro hcon
            exact hns (mem_of_getLast?_eq q '/' hcon)
        · have hpne : p.data ≠ [] := by
            intro h0
            apply hd
            have h1seg : pathSegments p = [[]] := by
              unfold pathSegments
              rw [h0]
              rfl
            rw [h1seg]
            apply List.drop_eq_nil_of_le
            cases hsf : pathSegments f with
            | nil =>
              exact absurd hsf (by
                unfold pathSegments
                exact splitOnChar_ne_nil '/' _)
            | cons _ _ => simp
          obtain ⟨q, hq, hqne⟩ :=
            splitOnChar_getLast_ne_nil '/' p.data hpne hplast
          have hpseg : (pathSegments p).getLast? = some q := by
            unfold pathSegments
            rw [htrim]
            exact hq
          have hdl : ((pathSegments p).drop (pathSegments f).length).getLast? = some q := by
            rw [getLast?_drop_of_ne_nil _ _ hd]
            exact hpseg
          have hnew : (pathSegments t ++
              (pathSegments p).drop (pathSegments f).length).getLast? = some q := by
            rw [List.getLast?_append, hdl]
            rfl
          have hj := joinChar_getLast '/' _ q hnew hqne
          have hqmem : q ∈ splitOnChar '/' p.data := mem_of_getLast?_eq _ q hq
          have hns : '/' ∉ q := sep_not_mem_splitOnChar '/' p.data q hqmem
          rw [hj]
          intro hcon
          exact hns (mem_of_getLast?_eq q '/' hcon)
  · rw [if_neg h1]

/-- `rewrite_rule` preserves the slash parity of `Renamed` rules: rewriting
keeps `from.is_dir() == to.is_dir()` because `rewrite_path` preserves the
trailing slash. -/
theorem rewrite_rule_parity (r : Rule) (f t : String)
    (hr : ∀ a b, r = Rule.Renamed a b → endsSlash a = endsSlash b) :
    ∀ a b, rewrite_rule r f t = Rule.Renamed a b → endsSlash a = endsSlash b := by
  cases r with
  | Deleted p =>
    intro a b h
    simp [rewrite_rule] at h
  | Unchanged p =>
    intro a b h
    revert h
    show (if rewrite_path p f t = p then Rule.Unchanged p
        else Rule.Renamed p (rewrite_path p f t)) = Rule.Renamed a b → _
    split
    · intro h
      simp at h
    · intro h
      injection h with ha hb
      subst ha
      subst hb
      exact (rewrite_path_endsSlash p f t).symm
  | Renamed f' t' =>
    intro a b h
    unfold rewrite_rule at h
    injection h with ha hb
    subst ha
    subst hb
    exact (hr f' t' rfl).trans (rewrite_path_endsSlash t' f t).symm

/-- One rename-propagation step preserves slash parity of all `Renamed`
rules in the list. -/
theorem applyRenameStep_parity (acc : List Rule) (i : Nat)
    (h : ∀ f t, Rule.Renamed f t ∈ acc → endsSlash f = endsSlash t) :
    ∀ f t, Rule.Renamed f t ∈ applyRenameStep acc i → endsSlash f = endsSlash t := by
  intro f t hmem
  unfold applyRenameStep at hmem
  split at hmem
  case h_1 f0 t0 heq =>
    rcases List.mem_append.1 hmem with hmt | hmm
    · exact h f t (List.mem_of_mem_take hmt)
    · rcases List.mem_map.1 hmm with ⟨r, hrmem, hre⟩
      refine rewrite_rule_parity r f0 t0 ?_ f t hre
      intro a b hab
      exact h a b (hab ▸ List.mem_of_mem_drop hrmem)
  case h_2 =>
    exact h f t hmem

/-- The whole rename-propagation fold preserves slash parity. -/
theorem applyRenamesFold_parity :
    ∀ (idxs : List Nat) (acc : List Rule),
      (∀ f t, Rule.Renamed f t ∈ acc → endsSlash f = endsSlash t) →
      ∀ f t, Rule.Renamed f t ∈ idxs.foldl applyRenameStep acc →
        endsSlash f = endsSlash t := by
  intro idxs
  induction idxs with
  | nil => intro acc h; exact h
  | cons i rest ih =>
    intro acc h
    exact ih (applyRenameStep acc i) (applyRenameStep_parity acc i h)

/-- Delete propagation preserves slash parity (it only ever removes or
keeps `Renamed` rules). -/
theorem delete_stage_parity (rules : List Rule)
    (h : ∀ f t, Rule.Renamed f t ∈ rules → endsSlash f = endsSlash t) :
    ∀ f t, Rule.Renamed f t ∈ delete_stage rules → endsSlash f = endsSlash t := by
  intro f t hmem
  unfold delete_stage at hmem
  rcases List.mem_map.1 hmem with ⟨r, hrmem, hre⟩
  cases r with
  | Deleted p => simp [apply_deletes] at hre
  | Unchanged p =>
    simp only [apply_deletes] at hre
    split at hre <;> simp at hre
  | Renamed f' t' =>
    simp only [apply_deletes] at hre
    split at hre
    · simp at hre
    · injection hre with ha hb
      subst ha
      subst hb
      exact h f' t' hrmem

/-- A member of a `zipWith` comes from a zipped pair of the inputs. -/
theorem mem_zipWith_pair {α β γ : Type} (g : α → β → γ) :
    ∀ (l1 : List α) (l2 : List β) (x : γ),
      x ∈ List.zipWith g l1 l2 → ∃ a b, (a, b) ∈ l1.zip l2 ∧ x = g a b := by
  intro l1
  induction l1 with
  | nil => intro l2 x hx; simp at hx
  | cons a l1 ih =>
    intro l2 x hx
    cases l2 with
    | nil => simp at hx
    | cons b l2 =>
      rw [List.zipWith_cons_cons] at hx
      rcases List.mem_cons.1 hx with h1 | h2
      · exact ⟨a, b, by simp, h1⟩
      · rcases ih l2 x h2 with ⟨a', b', hm, he⟩
        exact ⟨a', b', List.mem_cons_of_mem _ hm, he⟩

/-- Claim C7 (amended): every `Renamed` produced by `build_rules` satisfies
`from.is_dir() == to.is_dir()` provided the edited listing preserves the
trailing slash on each slot it renames, and `normalize_rules` preserves
that invariant: if every input `Renamed` has matching slash parity, so
does every `Renamed` in the normalized output. Without the hypothesis the
invariant can be violated (see the counterexample); it is only asserted at
apply time by `EditRule::apply`. -/
theorem claim_C7_renamed_slash_parity :
    (∀ (original new : List String) (rules : List Rule),
      build_rules original new = some rules →
      (∀ a b, (a, b) ∈ original.zip new → a ≠ b →
        ¬(strStartsWith b "- " = true ∧ strStartsWith a "- " = false) →
        endsSlash a = endsSlash b) →
      ∀ f t, Rule.Renamed f t ∈ rules → endsSlash f = endsSlash t) ∧
    (∀ rules : List Rule,
      (∀ f t, Rule.Renamed f t ∈ rules → endsSlash f = endsSlash t) →
      ∀ f t, Rule.Renamed f t ∈ normalize_rules rules →
        endsSlash f = endsSlash t) := by
  constructor
  · intro original new rules hb hpair f t hmem
    unfold build_rules at hb
    split at hb
    case isTrue hlen =>
      injection hb with hb
      subst hb
      rcases mem_zipWith_pair pair_rule original new _ hmem with ⟨a, b, hzip, heq⟩
      unfold pair_rule at heq
      by_cases hab : a = b
      · rw [if_pos hab] at heq
        simp at heq
      · rw [if_neg hab] at heq
        by_cases hsent : (strStartsWith b "- " && !strStartsWith a "- ") = true
        · rw [if_pos hsent] at heq
          simp at heq
        · rw [if_neg hsent] at heq
          injection heq with hf ht
          rw [hf, ht]
          refine hpair a b hzip hab ?_
          intro hcon
          apply hsent
          rw [hcon.1, hcon.2]
          rfl
    case isFalse =>
      exact absurd hb (by simp)
  · intro rules h
    unfold normalize_rules
    exact applyRenamesFold_parity _ _ (delete_stage_parity rules h)

/-- Witness for `claim_C7_renamed_slash_parity`: both halves applied at
concrete inputs (a slash-preserving rename in a listing pair, and a
normalization of a slash-preserving `Renamed` rule). -/
theorem claim_C7_witness :
    endsSlash "a/" = endsSlash "c/" ∧ endsSlash "a/x" = endsSlash "b/x" := by
  constructor
  · refine claim_C7_renamed_slash_parity.1 ["a/"] ["c/"] [Rule.Renamed "a/" "c/"]
      rfl ?_ "a/" "c/" (by decide)
    intro a b hab _ _
    have h2 : (a, b) = ("a/", "c/") := by simpa using hab
    injection h2 with h3 h4
    subst h3
    subst h4
    decide
  · refine claim_C7_renamed_slash_parity.2 [Rule.Renamed "a/x" "b/x"] ?_
      "a/x" "b/x" (by decide)
    intro f t hm
    have h2 : Rule.Renamed f t = Rule.Renamed "a/x" "b/x" := by simpa using hm
    injection h2 with h3 h4
    subst h3
    subst h4
    decide

/-- `rfindChar` returns an in-range index, and it points at the very last
position only when the list ends with the separator. -/
theorem rfindChar_spec (sep : Char) :
    ∀ (l : List Char) (k : Nat), rfindChar sep l = some k →
      k < l.length ∧ (k + 1 = l.length → l.getLast? = some sep) := by
  intro l
  induction l with
  | nil => intro k h; simp [rfindChar] at h
  | cons c rest ih =>
    intro k h
    unfold rfindChar at h
    cases hr : rfindChar sep rest with
    | some k' =>
      rw [hr] at h
      injection h with h
      subst h
      rcases ih k' hr with ⟨hlt, hlast⟩
      refine ⟨by simpa using Nat.succ_lt_succ hlt, ?_⟩
      intro he
      have he' : k' + 1 = rest.length := by simpa using he
      have hrl := hlast he'
      cases hrest : rest with
      | nil => subst hrest; simp at hlt
      | cons x xs =>
        subst hrest
        rw [List.getLast?_cons_cons]
        exact hrl
    | none =>
      rw [hr] at h
      by_cases hc : c = sep
      · rw [if_pos hc] at h
        injection h with h
        subst h
        refine ⟨by simp, ?_⟩
        intro he
        have hrl : rest.length = 0 := by
          simp only [List.length_cons] at he
          omega
        have hrest : rest = [] := List.length_eq_zero.1 hrl
        subst hrest
        simp [hc]
      · rw [if_neg hc] at h
        simp at h

/-- `parent_dir` strictly shortens its argument, so the `parentChain` fuel
of one character per path character is always sufficient. -/
theorem parent_dir_eq (p : String) :
    parent_dir p =
      match rfindChar '/' (trimEndChar '/' p.data) with
      | none => none
      | some pos =>
        if pos = 0 then none
        else
          if String.mk ((trimEndChar '/' p.data).take pos ++ ['/']) = "/" ∨
              String.mk ((trimEndChar '/' p.data).take pos ++ ['/']) = "./" then none
          else some (String.mk ((trimEndChar '/' p.data).take pos ++ ['/'])) := rfl

theorem parent_dir_shortens (p q : String) (h : parent_dir p = some q) :
    q.data.length < p.data.length := by
  cases hr : rfindChar '/' (trimEndChar '/' p.data) with
  | none =>
    rw [parent_dir_eq, hr] at h
    simp at h
  | some pos =>
    have hpe : parent_dir p =
        (if pos = 0 then none
         else
           if String.mk ((trimEndChar '/' p.data).take pos ++ ['/']) = "/" ∨
               String.mk ((trimEndChar '/' p.data).take pos ++ ['/']) = "./" then none
           else some (String.mk ((trimEndChar '/' p.data).take pos ++ ['/']))) := by
      rw [parent_dir_eq, hr]
    rw [hpe] at h
    by_cases h0 : pos = 0
    · rw [if_pos h0] at h; simp at h
    · rw [if_neg h0] at h
      by_cases hroot : String.mk ((trimEndChar '/' p.data).take pos ++ ['/']) = "/" ∨
          String.mk ((trimEndChar '/' p.data).take pos ++ ['/']) = "./"
      · rw [if_pos hroot] at h; simp at h
      · rw [if_neg hroot] at h
        injection h with h
        subst h
        rcases rfindChar_spec '/' _ pos hr with ⟨hlt, hlast⟩
        have hne : pos + 1 ≠ (trimEndChar '/' p.data).length := by
          intro he
          exact trimEndChar_getLast '/' p.data (hlast he)
        have htle : (trimEndChar '/' p.data).length ≤ p.data.length := by
          unfold trimEndChar
          rw [List.length_reverse]
          calc (p.data.reverse.dropWhile (fun c => c = '/')).length
              ≤ p.data.reverse.length :=
                (List.dropWhile_sublist (fun c => decide (c = '/'))).length_le
            _ = p.data.length := List.length_reverse _
        show ((trimEndChar '/' p.data).take pos ++ ['/']).length < p.data.length
        rw [List.length_append, List.length_take]
        have hmin : min pos (trimEndChar '/' p.data).length = pos :=
          Nat.min_eq_left (Nat.le_of_lt hlt)
        simp only [hmin, List.length_singleton]
        omega

/-- `parentChainAux` does not depend on its fuel as long as the fuel is
at least the path's length. -/
theorem parentChainAux_fuel_irrel :
    ∀ (n : Nat) (m : Nat) (p : String), p.data.length ≤ n → p.data.length ≤ m →
      parentChainAux n p = parentChainAux m p := by
  intro n
  induction n with
  | zero =>
    intro m p hn _
    have hdata : p.data = [] := List.length_eq_zero.1 (Nat.le_zero.1 hn)
    have hpd : parent_dir p = none := by
      unfold parent_dir
      rw [show trimEndChar '/' p.data = [] from by rw [hdata]; rfl]
      rfl
    cases m with
    | zero => rfl
    | succ m =>
      show ([] : List String) = parentChainAux (m + 1) p
      unfold parentChainAux
      rw [hpd]
  | succ n ih =>
    intro m p hn hm
    cases m with
    | zero =>
      have hdata : p.data = [] := List.length_eq_zero.1 (Nat.le_zero.1 hm)
      have hpd : parent_dir p = none := by
        unfold parent_dir
        rw [show trimEndChar '/' p.data = [] from by rw [hdata]; rfl]
        rfl
      show parentChainAux (n + 1) p = ([] : List String)
      unfold parentChainAux
      rw [hpd]
    | succ m =>
      show parentChainAux (n + 1) p = parentChainAux (m + 1) p
      unfold parentChainAux
      cases hpd : parent_dir p with
      | none => rfl
      | some q =>
        have hq := parent_dir_shortens p q hpd
        show q :: parentChainAux n q = q :: parentChainAux m q
        rw [ih m q (by omega) (by omega)]

/-- The fuel used by `parentChain` is sufficient: any larger fuel yields
the same ancestor chain, so `parentChain` is exactly the while-loop of
`get_missing_parents`. -/
theorem parentChain_fuel_sufficient (fuel : Nat) (p : String)
    (h : p.data.length ≤ fuel) : parentChainAux fuel p = parentChain p :=
  parentChainAux_fuel_irrel fuel p.data.length p h (Nat.le_refl _)
